import Mathlib

set_option maxHeartbeats 1000000
set_option synthInstance.maxHeartbeats 400000

/-!
Shallow embedding of `src/main.py`, a utility that migrates a Drakensang
Online installation: it copies the source directory tree to a destination,
deletes a shortcut, and then deletes the source tree.

The file system is modelled as an association list from absolute paths
(lists of name components; the root is `[]`) to entries (directories, or
files carrying their byte contents).  Python exceptions that escape a
function are modelled by an `exc` flag threaded through each operation;
exceptions that the source catches locally are modelled by the `Option`
results of the file-system primitives together with the `catch` branches
written out at each call site, exactly as in the source.  Console output is
modelled as a list of log entries carrying the severity string passed to
`Logger.log` and a tagged message constructor; `msgText` renders each tag to
the text the Python f-strings produce.
-/

namespace DsoMiti

/-- A file-system path, as its list of components (absolute; the root is `[]`). -/
abbrev Path : Type := List String

/-- A file-system entry: a file with its byte contents, or a directory. -/
inductive Entry : Type
  | file (content : List Nat)
  | dir
deriving DecidableEq

/-- The file system: an association list from paths to entries. -/
abbrev FS : Type := List (Path × Entry)

/-- First-match lookup of a path in the association-list file system. -/
def findEntry : FS → Path → Option Entry
  | [], _ => none
  | ke :: rest, p => if ke.1 = p then some ke.2 else findEntry rest p

/-- Model of pathlib `Path.exists`; the root `[]` always exists. -/
def pathExists (fs : FS) (p : Path) : Bool :=
  if p = [] then true else (findEntry fs p).isSome

/-- Model of pathlib `Path.is_dir`; the root `[]` is a directory. -/
def isDirFS (fs : FS) (p : Path) : Bool :=
  if p = [] then true else decide (findEntry fs p = some Entry.dir)

/-- `isUnder root p` holds when `p` is `root` itself or lies in the subtree
rooted at `root` (i.e. `root` is a prefix of `p`). -/
def isUnder (root p : Path) : Bool := List.isPrefixOf root p

/-- Remove every binding of the key `p`. -/
def eraseKey (fs : FS) (p : Path) : FS :=
  fs.filter (fun ke => decide (ke.1 ≠ p))

/-- Bind `p` to `e`, replacing any previous binding. -/
def insertEntry (fs : FS) (p : Path) (e : Entry) : FS :=
  (p, e) :: eraseKey fs p

/-- Model of `shutil.rmtree`: remove every entry at or below `p`. -/
def eraseTree (fs : FS) (p : Path) : FS :=
  fs.filter (fun ke => !(isUnder p ke.1))

/-- The distinct keys of the file system. -/
def keysOf (fs : FS) : List Path :=
  (fs.map Prod.fst).dedup

/-- The nonempty prefixes of a path, shortest first: the chain of directories
that `mkdir(parents=True)` must ensure exist. -/
def ancestorsOf (p : Path) : List Path :=
  (List.range p.length).map (fun i => p.take (i + 1))

/-- Worker for `mkdirParents`: walk the prefix chain, creating missing
directories; a prefix occupied by a file raises (returns `none`). -/
def mkdirGo : FS → List Path → Option FS
  | g, [] => some g
  | g, q :: qs =>
    match findEntry g q with
    | some Entry.dir => mkdirGo g qs
    | some (Entry.file _) => none
    | none => mkdirGo (insertEntry g q Entry.dir) qs

/-- Model of pathlib `Path.mkdir(parents=True, exist_ok=True)`.  It creates
`p` and all missing ancestors as directories; it raises (`none`) when `p` or
one of its ancestors exists as a file.  Like pathlib (which recurses upward
and only starts creating once it finds the shallowest missing level whose
parent is a directory), it creates nothing when it raises, so the caller
keeps the original file system in that case. -/
def mkdirParents (fs : FS) (p : Path) : Option FS :=
  mkdirGo fs (ancestorsOf p)

/-- Model of pathlib `Path.unlink(missing_ok=True)`: a missing target is a
successful no-op; a file is removed; a directory raises (`none`). -/
def unlink (fs : FS) (p : Path) : Option FS :=
  match findEntry fs p with
  | none => some fs
  | some (Entry.file _) => some (eraseKey fs p)
  | some Entry.dir => none

/-- Model of `shutil.copy2 s d`: copies the file at `s` to `d`, overwriting
an existing file at `d`.  It raises (`none`) when `s` is missing or a
directory, when `s` and `d` are the same path (SameFileError), or when `d`
is an existing directory. -/
def copy2 (fs : FS) (s d : Path) : Option FS :=
  match findEntry fs s with
  | some (Entry.file c) =>
    if s = d then none
    else
      match findEntry fs d with
      | some Entry.dir => none
      | _ => some (insertEntry fs d (Entry.file c))
  | _ => none

/-- Model of the directory list produced by `os.walk(root)`: every directory
at or below `root` (the walk itself, in the source, is the lazy generator;
this eager snapshot coincides with it whenever the loop body does not mutate
the subtree being walked, which holds when the destination tree is disjoint
from the source tree). -/
def walkDirs (fs : FS) (root : Path) : List Path :=
  (keysOf fs).filter (fun q => isUnder root q && decide (findEntry fs q = some Entry.dir))

/-- Model of the file-name list `os.walk` yields for the directory `d`: the
last components of the file entries lying directly inside `d`. -/
def filesIn (fs : FS) (d : Path) : List String :=
  (keysOf fs).filterMap (fun q =>
    if (q.length == d.length + 1) && isUnder d q then
      match findEntry fs q with
      | some (Entry.file _) => q.getLast?
      | _ => none
    else none)

/-- Well-formedness of the association-list file system: keys are distinct
and nonempty, and every proper ancestor of a key is a directory (the tree is
closed under parents, as any real directory tree is). -/
def WFfs (fs : FS) : Prop :=
  (fs.map Prod.fst).Nodup ∧
    ∀ ke ∈ fs, ke.1 ≠ [] ∧
      ∀ q ∈ ancestorsOf ke.1, q ≠ ke.1 → findEntry fs q = some Entry.dir

instance : DecidablePred WFfs := fun fs => by
  unfold WFfs
  infer_instance

/-- The tagged log messages the program can emit; `msgText` renders each to
the text of the corresponding Python f-string. -/
inductive Msg : Type
  | migrationInitiated
  | sourceDirNotFound (p : Path)
  | destParentMissing (p : Path)
  | sourcePathNotFound (p : Path)
  | failedCopy (p : Path)
  | copyCompleted
  | targetNotFound (p : Path)
  | deletedDirectory (p : Path)
  | deletedFile (p : Path)
  | failedDelete (p : Path)
  | startingTask (taskName : String)
  | completedTask (taskName : String)
  | allTasksCompleted
deriving DecidableEq

/-- Render a path the way `str(Path(...))` appears inside the messages
(separator choice is immaterial to the claims). -/
def showPath (p : Path) : String := String.intercalate "/" p

/-- The message text of each tag, as produced by the f-strings in the source
(the caught-exception detail interpolated as the final `: ...` part of the
two failure messages is elided, and surrounding quotes are dropped). -/
def msgText : Msg → String
  | Msg.migrationInitiated => "Migration process initiated."
  | Msg.sourceDirNotFound p => "Source directory not found: " ++ showPath p
  | Msg.destParentMissing p => "Destination parent missing, creating: " ++ showPath p
  | Msg.sourcePathNotFound p => "Source path not found: " ++ showPath p
  | Msg.failedCopy p => "Failed to copy " ++ showPath p
  | Msg.copyCompleted => "Copy operation completed successfully."
  | Msg.targetNotFound p => "Target not found, skipping: " ++ showPath p
  | Msg.deletedDirectory p => "Deleted directory: " ++ showPath p
  | Msg.deletedFile p => "Deleted file: " ++ showPath p
  | Msg.failedDelete p => "Failed to delete " ++ showPath p
  | Msg.startingTask n => "Starting task: " ++ n
  | Msg.completedTask n => "Completed task: " ++ n
  | Msg.allTasksCompleted => "All migration tasks completed successfully."

/-- One console log entry: the severity string the convenience wrapper
passes to `Logger.log`, and the tagged message. -/
structure LogEntry where
  level : String
  msg : Msg
deriving DecidableEq

/-- Entry produced through `Logger.info`. -/
def infoE (m : Msg) : LogEntry := ⟨"INFO", m⟩

/-- Entry produced through `Logger.error`. -/
def errE (m : Msg) : LogEntry := ⟨"ERROR", m⟩

/-- ASCII upper-casing of one character, the effect of Python `str.upper`
on the ASCII severity strings the program uses. -/
def asciiUpper (c : Char) : Char :=
  if 97 ≤ c.toNat ∧ c.toNat ≤ 122 then Char.ofNat (c.toNat - 32) else c

/-- Model of Python `str.upper` (ASCII range). -/
def pyUpper (s : String) : String := String.mk (s.data.map asciiUpper)

/-- The `Logger.log_levels` class dictionary. -/
def logLevels : List (String × String) :=
  [("INFO", "INF"), ("DEBUG", "DBG"), ("ERROR", "ERR"),
   ("CLIENT", "CLT"), ("EXCEPTION", "EXE")]

/-- Model of `Logger.log`: format one output line.  The wall-clock timestamp
is an input; the severity code is looked up after upper-casing the severity,
falling back to `LOG` for unrecognized severities. -/
def Logger.log (timestamp level message : String) : String :=
  "[" ++ timestamp ++ "] [" ++ ((logLevels.lookup (pyUpper level)).getD "LOG")
    ++ "] - " ++ message

/-- The printed line of a structured log entry, through `Logger.log`. -/
def renderEntry (timestamp : String) (le : LogEntry) : String :=
  Logger.log timestamp le.level (msgText le.msg)

/-- The observable result of running a piece of the program: the file system,
the log entries emitted (in order), and whether an exception escaped. -/
structure ExecSt where
  fs : FS
  logs : List LogEntry
  exc : Bool
deriving DecidableEq

/-- `CopyOperation`: recursively copies files and directories from `src` to
`dst`. -/
structure CopyOperation where
  src : Path
  dst : Path
deriving DecidableEq

/-- `DeleteOperation`: deletes a specified file or folder; the `recursive`
flag defaults to `True` in the source dataclass. -/
structure DeleteOperation where
  target : Path
  recursive : Bool := true
deriving DecidableEq

/-- The per-file loop body of `CopyOperation.execute`: `shutil.copy2` with
its failure caught and logged as an error. -/
def copyFileStep (sdir ddir : Path) (st : ExecSt) (f : String) : ExecSt :=
  match copy2 st.fs (sdir ++ [f]) (ddir ++ [f]) with
  | some fs2 => { st with fs := fs2 }
  | none => { st with logs := st.logs ++ [errE (Msg.failedCopy (sdir ++ [f]))] }

/-- The per-directory loop body of `CopyOperation.execute`: make the
destination directory (an uncaught failure here escapes, setting `exc`),
then copy each file of the directory.  `snap` is the walk snapshot. -/
def copyDirStep (src dst : Path) (snap : FS) (st : ExecSt) (d : Path) : ExecSt :=
  if st.exc then st
  else
    let ddir := dst ++ d.drop src.length
    match mkdirParents st.fs ddir with
    | none => { st with exc := true }
    | some fs2 => (filesIn snap d).foldl (copyFileStep d ddir) { st with fs := fs2 }

/-- `CopyOperation.execute`: if the source is missing, log one error and
return; otherwise create the destination directory (uncaught failure
escapes) and walk the source tree, recreating each directory and copying
each file, then log one success message. -/
def CopyOperation.execute (op : CopyOperation) (fs : FS) : ExecSt :=
  if pathExists fs op.src then
    match mkdirParents fs op.dst with
    | none => ⟨fs, [], true⟩
    | some fs1 =>
      let st := (walkDirs fs1 op.src).foldl (copyDirStep op.src op.dst fs1)
        ⟨fs1, [], false⟩
      if st.exc then st else { st with logs := st.logs ++ [infoE Msg.copyCompleted] }
  else ⟨fs, [errE (Msg.sourcePathNotFound op.src)], false⟩

/-- `DeleteOperation.execute`: a missing target is an informational no-op; a
directory with the recursive flag is removed with `rmtree`; otherwise
`unlink` removes a single file, and its failure on a directory is caught and
logged as an error. -/
def DeleteOperation.execute (op : DeleteOperation) (fs : FS) : ExecSt :=
  if pathExists fs op.target then
    if isDirFS fs op.target && op.recursive then
      ⟨eraseTree fs op.target, [infoE (Msg.deletedDirectory op.target)], false⟩
    else
      match unlink fs op.target with
      | some fs2 => ⟨fs2, [infoE (Msg.deletedFile op.target)], false⟩
      | none => ⟨fs, [errE (Msg.failedDelete op.target)], false⟩
  else ⟨fs, [infoE (Msg.targetNotFound op.target)], false⟩

/-- The closed variant type of operations (`Copy` or `Delete`). -/
inductive Operation : Type
  | copy (op : CopyOperation)
  | delete (op : DeleteOperation)
deriving DecidableEq

/-- Dispatch `execute` over the two operation shapes. -/
def Operation.execute : Operation → FS → ExecSt
  | Operation.copy op, fs => op.execute fs
  | Operation.delete op, fs => op.execute fs

/-- `MigrationTask`: a named ordered group of operations. -/
structure MigrationTask where
  name : String
  operations : List Operation
deriving DecidableEq

/-- Sequencing of one operation inside a task: once an exception escaped,
nothing further runs; otherwise run the operation and append its logs. -/
def opStep (st : ExecSt) (op : Operation) : ExecSt :=
  if st.exc then st
  else
    let r := op.execute st.fs
    ⟨r.fs, st.logs ++ r.logs, r.exc⟩

/-- `MigrationTask.run`: log the start message, run each operation in order,
then log the completion message (not reached when an exception escaped). -/
def MigrationTask.run (t : MigrationTask) (fs : FS) : ExecSt :=
  let st := t.operations.foldl opStep ⟨fs, [infoE (Msg.startingTask t.name)], false⟩
  if st.exc then st else { st with logs := st.logs ++ [infoE (Msg.completedTask t.name)] }

/-- Task sequencing inside `perform_migration`. -/
def taskStep (st : ExecSt) (t : MigrationTask) : ExecSt :=
  if st.exc then st
  else
    let r := t.run st.fs
    ⟨r.fs, st.logs ++ r.logs, r.exc⟩

/-- Run the tasks in order, propagating an escaped exception. -/
def runTasks (ts : List MigrationTask) (st : ExecSt) : ExecSt :=
  ts.foldl taskStep st

/-- `DrakensangMigrator`: the three paths of the run; the shortcut is
optional (`None` in Python). -/
structure DrakensangMigrator where
  source : Path
  destination : Path
  shortcut : Option Path := none
deriving DecidableEq

/-- The task list literal built inside `perform_migration`, with the
conditional-expression slot that is `None` when no shortcut was supplied. -/
def DrakensangMigrator.taskOptions (m : DrakensangMigrator) : List (Option MigrationTask) :=
  [some ⟨"Copy Game Files", [Operation.copy ⟨m.source, m.destination⟩]⟩,
   match m.shortcut with
   | some s => some ⟨"Delete Shortcut", [Operation.delete ⟨s, false⟩]⟩
   | none => none,
   some ⟨"Remove Old Installation", [Operation.delete ⟨m.source, true⟩]⟩]

/-- The tasks actually run: `filter(None, tasks)` in the source. -/
def DrakensangMigrator.tasks (m : DrakensangMigrator) : List MigrationTask :=
  m.taskOptions.filterMap id

/-- `DrakensangMigrator.perform_migration`: log initiation; abort with an
error when the source directory is missing; create the destination parent
when missing (logging first, so the info line is emitted even when the
uncaught `mkdir` failure escapes); then run the tasks in order and log
overall completion. -/
def DrakensangMigrator.perform_migration (m : DrakensangMigrator) (fs : FS) : ExecSt :=
  let initLogs := [infoE Msg.migrationInitiated]
  if pathExists fs m.source then
    let stepA : ExecSt :=
      if pathExists fs m.destination.dropLast then ⟨fs, initLogs, false⟩
      else
        match mkdirParents fs m.destination.dropLast with
        | some fs1 =>
          ⟨fs1, initLogs ++ [infoE (Msg.destParentMissing m.destination.dropLast)], false⟩
        | none =>
          ⟨fs, initLogs ++ [infoE (Msg.destParentMissing m.destination.dropLast)], true⟩
    let st := runTasks m.tasks stepA
    if st.exc then st else { st with logs := st.logs ++ [infoE Msg.allTasksCompleted] }
  else ⟨fs, initLogs ++ [errE (Msg.sourceDirNotFound m.source)], false⟩

/-- The names of the tasks whose start line appears in a log, in order. -/
def startedTasks (logs : List LogEntry) : List String :=
  logs.filterMap (fun le =>
    match le.msg with
    | Msg.startingTask n => some n
    | _ => none)

/-! Proof-infrastructure predicates for the copy correctness argument. -/

/-- Invariant of the copy loop, relating the working file system `g` to the
snapshot `base` taken just after the destination directory was created:
outside the destination subtree nothing has changed, and inside it every
entry is either still absent or agrees with the corresponding source entry
of the snapshot. -/
def copyInv (base : FS) (src dst : Path) (g : FS) : Prop :=
  (∀ p, isUnder dst p = false → findEntry g p = findEntry base p) ∧
    (∀ rel, findEntry g (dst ++ rel) = none ∨
      findEntry g (dst ++ rel) = findEntry base (src ++ rel))

/-- The entry at relative path `rel` has been copied: the destination holds
exactly what the source holds in the snapshot. -/
def copied (base : FS) (src dst : Path) (g : FS) (rel : Path) : Prop :=
  findEntry g (dst ++ rel) = findEntry base (src ++ rel)

/-- Side conditions for the copy argument, all about the snapshot `base`:
the source root is a directory whose subtree has directory ancestors, the
destination root is a fresh directory with directory ancestors, and the two
subtrees are disjoint. -/
structure CopyCtx (base : FS) (src dst : Path) : Prop where
  srcDir : findEntry base src = some Entry.dir
  srcAnc : ∀ p e, isUnder src p = true → findEntry base p = some e →
    ∀ q, isUnder src q = true → isUnder q p = true → q ≠ p →
      findEntry base q = some Entry.dir
  dstDir : findEntry base dst = some Entry.dir
  dstFresh : ∀ rel, rel ≠ [] → findEntry base (dst ++ rel) = none
  dstAnc : ∀ q, q ∈ ancestorsOf dst → findEntry base q = some Entry.dir
  sdDisj : isUnder src dst = false
  dsDisj : isUnder dst src = false

/-! # Theorems -/

/-! ## Primitive lemmas about the file-system model -/

theorem findEntry_eraseKey (fs : FS) (k p : Path) :
    findEntry (eraseKey fs k) p = if p = k then none else findEntry fs p := by
  induction fs with
  | nil => simp [eraseKey, findEntry]
  | cons ke rest ih =>
    by_cases hk : ke.1 = k
    · have h1 : eraseKey (ke :: rest) k = eraseKey rest k := by
        simp [eraseKey, List.filter_cons, hk]
      rw [h1, ih]
      by_cases hp : p = k
      · simp [hp]
      · have hne : ke.1 ≠ p := by rw [hk]; exact fun h => hp h.symm
        simp [hp, findEntry, hne]
    · have h1 : eraseKey (ke :: rest) k = ke :: eraseKey rest k := by
        simp [eraseKey, List.filter_cons, hk]
      rw [h1]
      by_cases hke : ke.1 = p
      · have hp : ¬ p = k := by rw [← hke]; exact hk
        simp [findEntry, hke, hp]
      · simp [findEntry, hke, ih]

theorem findEntry_insert (fs : FS) (k p : Path) (e : Entry) :
    findEntry (insertEntry fs k e) p = if p = k then some e else findEntry fs p := by
  simp only [insertEntry, findEntry]
  by_cases h : k = p
  · simp [h]
  · rw [if_neg h, findEntry_eraseKey, if_neg (fun hh : p = k => h hh.symm),
      if_neg (fun hh : p = k => h hh.symm)]

theorem findEntry_eraseTree (fs : FS) (r p : Path) :
    findEntry (eraseTree fs r) p = if isUnder r p then none else findEntry fs p := by
  induction fs with
  | nil => simp [eraseTree, findEntry]
  | cons ke rest ih =>
    by_cases hu : isUnder r ke.1 = true
    · have h1 : eraseTree (ke :: rest) r = eraseTree rest r := by
        simp [eraseTree, List.filter_cons, hu]
      rw [h1, ih]
      by_cases hp : isUnder r p = true
      · simp [hp]
      · have hne : ke.1 ≠ p := fun h => hp (h ▸ hu)
        simp [hp, findEntry, hne]
    · have h1 : eraseTree (ke :: rest) r = ke :: eraseTree rest r := by
        simp [eraseTree, List.filter_cons, hu]
      rw [h1]
      by_cases hke : ke.1 = p
      · have hp : ¬ isUnder r p = true := by rw [← hke]; exact hu
        simp [findEntry, hke, hp]
      · simp [findEntry, hke, ih]

theorem findEntry_mem {fs : FS} {p : Path} {e : Entry} (h : findEntry fs p = some e) :
    (p, e) ∈ fs := by
  induction fs with
  | nil => simp [findEntry] at h
  | cons ke rest ih =>
    simp only [findEntry] at h
    by_cases hk : ke.1 = p
    · simp only [hk, if_true, Option.some.injEq] at h
      exact List.mem_cons.mpr (Or.inl (by cases ke; simp_all))
    · simp only [hk, if_false] at h
      exact List.mem_cons_of_mem _ (ih h)

theorem findEntry_none_iff (fs : FS) (p : Path) :
    findEntry fs p = none ↔ p ∉ fs.map Prod.fst := by
  induction fs with
  | nil => simp [findEntry]
  | cons ke rest ih =>
    by_cases hk : ke.1 = p
    · have h1 : findEntry (ke :: rest) p = some ke.2 := by simp [findEntry, hk]
      rw [h1]
      simp [List.map_cons, ← hk]
    · have h1 : findEntry (ke :: rest) p = findEntry rest p := by simp [findEntry, hk]
      rw [h1, ih, List.map_cons]
      constructor
      · intro hnot hmem
        rcases List.mem_cons.mp hmem with h2 | h2
        · exact hk h2.symm
        · exact hnot h2
      · intro hnot h2
        exact hnot (List.mem_cons_of_mem _ h2)

theorem mem_keysOf {fs : FS} {p : Path} :
    p ∈ keysOf fs ↔ findEntry fs p ≠ none := by
  rw [keysOf, List.mem_dedup, ne_eq, findEntry_none_iff, not_not]

/-! ## Lemmas about paths, prefixes and ancestors -/

theorem isUnder_iff {r p : Path} : isUnder r p = true ↔ r <+: p := by
  simp [isUnder, List.isPrefixOf_iff_prefix]

theorem isUnder_refl (p : Path) : isUnder p p = true :=
  isUnder_iff.mpr (List.prefix_refl p)

theorem isUnder_append (r t : Path) : isUnder r (r ++ t) = true :=
  isUnder_iff.mpr (List.prefix_append r t)

theorem isUnder_nil (p : Path) : isUnder [] p = true :=
  isUnder_iff.mpr List.nil_prefix

theorem append_drop_of_isUnder {r p : Path} (h : isUnder r p = true) :
    r ++ p.drop r.length = p := by
  obtain ⟨t, rfl⟩ := isUnder_iff.mp h
  rw [List.drop_left]

theorem isUnder_comparable {a b p : Path} (ha : isUnder a p = true) (hb : isUnder b p = true) :
    isUnder a b = true ∨ isUnder b a = true := by
  rcases List.prefix_or_prefix_of_prefix (isUnder_iff.mp ha) (isUnder_iff.mp hb) with h | h
  · exact Or.inl (isUnder_iff.mpr h)
  · exact Or.inr (isUnder_iff.mpr h)

theorem isUnder_append_right {r p : Path} (t : Path) (h : isUnder r p = true) :
    isUnder r (p ++ t) = true := by
  obtain ⟨s, rfl⟩ := isUnder_iff.mp h
  rw [List.append_assoc]
  exact isUnder_append r (s ++ t)

theorem mem_ancestorsOf {q p : Path} : q ∈ ancestorsOf p ↔ q ≠ [] ∧ q <+: p := by
  simp only [ancestorsOf, List.mem_map, List.mem_range]
  constructor
  · rintro ⟨i, hi, rfl⟩
    refine ⟨?_, List.take_prefix _ _⟩
    have hlen : (p.take (i + 1)).length = i + 1 := by
      rw [List.length_take]
      omega
    intro h
    rw [h] at hlen
    simp at hlen
  · rintro ⟨hne, hpre⟩
    have h1 : q.length ≤ p.length := hpre.length_le
    have h2 : 1 ≤ q.length := List.length_pos.mpr hne
    refine ⟨q.length - 1, by omega, ?_⟩
    have h3 : q.length - 1 + 1 = q.length := by omega
    rw [h3, ← List.prefix_iff_eq_take.mp hpre]

theorem self_mem_ancestorsOf {p : Path} (h : p ≠ []) : p ∈ ancestorsOf p :=
  mem_ancestorsOf.mpr ⟨h, List.prefix_refl p⟩


/-! ## Specification of the directory-creation primitive -/

theorem mkdirGo_spec (qs : List Path) (g : FS)
    (h : ∀ q ∈ qs, ∀ c, findEntry g q ≠ some (Entry.file c)) :
    ∃ g2, mkdirGo g qs = some g2 ∧
      (∀ q ∈ qs, findEntry g2 q = some Entry.dir) ∧
      (∀ p, findEntry g2 p = findEntry g p ∨
        (p ∈ qs ∧ findEntry g p = none ∧ findEntry g2 p = some Entry.dir)) := by
  induction qs generalizing g with
  | nil => exact ⟨g, rfl, by simp, fun p => Or.inl rfl⟩
  | cons q qs ih =>
    cases hq : findEntry g q with
    | some e =>
      cases e with
      | dir =>
        obtain ⟨g2, hg2, hdirs, hpt⟩ := ih g (fun r hr c => h r (List.mem_cons_of_mem _ hr) c)
        refine ⟨g2, by simp [mkdirGo, hq, hg2], ?_, ?_⟩
        · intro r hr
          rcases List.mem_cons.mp hr with rfl | hr
          · rcases hpt r with h1 | ⟨_, _, h3⟩
            · rw [h1, hq]
            · exact h3
          · exact hdirs r hr
        · intro p
          rcases hpt p with h1 | ⟨hm, h2, h3⟩
          · exact Or.inl h1
          · exact Or.inr ⟨List.mem_cons_of_mem _ hm, h2, h3⟩
      | file c => exact absurd hq (h q (List.mem_cons_self _ _) c)
    | none =>
      have hstep : ∀ r ∈ qs, ∀ c, findEntry (insertEntry g q Entry.dir) r ≠ some (Entry.file c) := by
        intro r hr c
        rw [findEntry_insert]
        by_cases hrq : r = q
        · simp [hrq]
        · rw [if_neg hrq]
          exact h r (List.mem_cons_of_mem _ hr) c
      obtain ⟨g2, hg2, hdirs, hpt⟩ := ih (insertEntry g q Entry.dir) hstep
      refine ⟨g2, by simp [mkdirGo, hq, hg2], ?_, ?_⟩
      · intro r hr
        rcases List.mem_cons.mp hr with rfl | hr
        · rcases hpt r with h1 | ⟨_, _, h3⟩
          · rw [h1, findEntry_insert, if_pos rfl]
          · exact h3
        · exact hdirs r hr
      · intro p
        rcases hpt p with h1 | ⟨hm, h2, h3⟩
        · rw [findEntry_insert] at h1
          by_cases hpq : p = q
          · rw [if_pos hpq] at h1
            exact Or.inr ⟨by rw [hpq]; exact List.mem_cons_self _ _, by rw [hpq]; exact hq, h1⟩
          · rw [if_neg hpq] at h1
            exact Or.inl h1
        · rw [findEntry_insert] at h2
          by_cases hpq : p = q
          · rw [if_pos hpq] at h2
            exact absurd h2 (by simp)
          · rw [if_neg hpq] at h2
            exact Or.inr ⟨List.mem_cons_of_mem _ hm, h2, h3⟩

theorem mkdirParents_spec (fs : FS) (p : Path)
    (h : ∀ q ∈ ancestorsOf p, ∀ c, findEntry fs q ≠ some (Entry.file c)) :
    ∃ fs1, mkdirParents fs p = some fs1 ∧
      (∀ q ∈ ancestorsOf p, findEntry fs1 q = some Entry.dir) ∧
      (∀ r, findEntry fs1 r = findEntry fs r ∨
        (r ∈ ancestorsOf p ∧ findEntry fs r = none ∧ findEntry fs1 r = some Entry.dir)) :=
  mkdirGo_spec (ancestorsOf p) fs h

/-! ## Membership in the walk snapshot -/

theorem mem_walkDirs {fs : FS} {root d : Path} :
    d ∈ walkDirs fs root ↔ isUnder root d = true ∧ findEntry fs d = some Entry.dir := by
  simp only [walkDirs, List.mem_filter, Bool.and_eq_true, decide_eq_true_eq]
  constructor
  · rintro ⟨hk, hu, hd⟩
    exact ⟨hu, hd⟩
  · rintro ⟨hu, hd⟩
    exact ⟨mem_keysOf.mpr (by simp [hd]), hu, hd⟩

theorem mem_filesIn {fs : FS} {d : Path} {f : String} :
    f ∈ filesIn fs d ↔ ∃ c, findEntry fs (d ++ [f]) = some (Entry.file c) := by
  simp only [filesIn, List.mem_filterMap]
  constructor
  · rintro ⟨q, hqmem, hq⟩
    by_cases hc : ((q.length == d.length + 1) && isUnder d q) = true
    · rw [if_pos hc] at hq
      have hc1 := (Bool.and_eq_true _ _).mp hc
      have hlen : q.length = d.length + 1 := by
        have := hc1.1
        simpa using this
      obtain ⟨t, rfl⟩ := isUnder_iff.mp hc1.2
      have hlt : t.length = 1 := by
        rw [List.length_append] at hlen
        omega
      obtain ⟨a, rfl⟩ := List.length_eq_one.mp hlt
      cases hfe : findEntry fs (d ++ [a]) with
      | none => rw [hfe] at hq; simp at hq
      | some e =>
        cases e with
        | dir => rw [hfe] at hq; simp at hq
        | file c =>
          rw [hfe] at hq
          simp only [List.getLast?_concat, Option.some.injEq] at hq
          subst hq
          exact ⟨c, hfe⟩
    · rw [if_neg hc] at hq
      simp at hq
  · rintro ⟨c, hc⟩
    refine ⟨d ++ [f], mem_keysOf.mpr (by simp [hc]), ?_⟩
    have hcond : (((d ++ [f]).length == d.length + 1) && isUnder d (d ++ [f])) = true := by
      simp [List.length_append, isUnder_append]
    rw [if_pos hcond, hc, List.getLast?_concat]

/-! ## Existence facts -/

theorem pathExists_true_of_some {fs : FS} {p : Path} {e : Entry}
    (h : findEntry fs p = some e) : pathExists fs p = true := by
  unfold pathExists
  split
  · rfl
  · simp [h]

theorem pathExists_eq_false {fs : FS} {p : Path} (hne : p ≠ [])
    (h : findEntry fs p = none) : pathExists fs p = false := by
  unfold pathExists
  rw [if_neg hne, h]
  rfl


/-! ## Behaviour of DeleteOperation.execute on each shape of target -/

theorem DeleteOperation.execute_missing {fs : FS} {t : Path} {r : Bool}
    (h : pathExists fs t = false) :
    DeleteOperation.execute ⟨t, r⟩ fs = ⟨fs, [infoE (Msg.targetNotFound t)], false⟩ := by
  unfold DeleteOperation.execute
  simp [h]

theorem DeleteOperation.execute_dir_recursive {fs : FS} {t : Path}
    (hne : t ≠ []) (h : findEntry fs t = some Entry.dir) :
    DeleteOperation.execute ⟨t, true⟩ fs =
      ⟨eraseTree fs t, [infoE (Msg.deletedDirectory t)], false⟩ := by
  unfold DeleteOperation.execute
  have h1 : pathExists fs t = true := pathExists_true_of_some h
  have h2 : isDirFS fs t = true := by
    unfold isDirFS
    rw [if_neg hne]
    simp [h]
  simp [h1, h2]

theorem DeleteOperation.execute_file {fs : FS} {t : Path} {r : Bool} {c : List Nat}
    (hne : t ≠ []) (h : findEntry fs t = some (Entry.file c)) :
    DeleteOperation.execute ⟨t, r⟩ fs =
      ⟨eraseKey fs t, [infoE (Msg.deletedFile t)], false⟩ := by
  unfold DeleteOperation.execute
  have h1 : pathExists fs t = true := pathExists_true_of_some h
  have h2 : isDirFS fs t = false := by
    unfold isDirFS
    rw [if_neg hne]
    simp [h]
  have h3 : unlink fs t = some (eraseKey fs t) := by
    unfold unlink
    rw [h]
  simp [h1, h2, h3]

theorem DeleteOperation.execute_dir_nonrecursive {fs : FS} {t : Path}
    (h : findEntry fs t = some Entry.dir) :
    DeleteOperation.execute ⟨t, false⟩ fs =
      ⟨fs, [errE (Msg.failedDelete t)], false⟩ := by
  unfold DeleteOperation.execute
  have h1 : pathExists fs t = true := pathExists_true_of_some h
  have h3 : unlink fs t = none := by
    unfold unlink
    rw [h]
  simp [h1, h3]

/-- A recursive delete never raises, and afterwards its target is gone. -/
theorem delete_source_spec (fs : FS) (t : Path) (hne : t ≠ []) :
    (DeleteOperation.execute ⟨t, true⟩ fs).exc = false ∧
      findEntry (DeleteOperation.execute ⟨t, true⟩ fs).fs t = none := by
  cases hfe : findEntry fs t with
  | none =>
    rw [DeleteOperation.execute_missing (pathExists_eq_false hne hfe)]
    exact ⟨rfl, hfe⟩
  | some e =>
    cases e with
    | dir =>
      rw [DeleteOperation.execute_dir_recursive hne hfe]
      refine ⟨rfl, ?_⟩
      rw [findEntry_eraseTree, if_pos (isUnder_refl t)]
    | file c =>
      rw [DeleteOperation.execute_file hne hfe]
      refine ⟨rfl, ?_⟩
      rw [findEntry_eraseKey, if_pos rfl]

/-! ## Logger lemmas -/

theorem toNat_charOfNat {n : Nat} (h : n.isValidChar) : (Char.ofNat n).toNat = n := by
  unfold Char.ofNat Char.toNat
  rw [dif_pos h]
  simp [Char.ofNatAux, UInt32.toNat, BitVec.toNat_ofNatLt]

theorem asciiUpper_idem (c : Char) : asciiUpper (asciiUpper c) = asciiUpper c := by
  by_cases h : 97 ≤ c.toNat ∧ c.toNat ≤ 122
  · have h1 : asciiUpper c = Char.ofNat (c.toNat - 32) := by
      unfold asciiUpper
      rw [if_pos h]
    have hval : (Char.ofNat (c.toNat - 32)).toNat = c.toNat - 32 :=
      toNat_charOfNat (Or.inl (by omega))
    rw [h1]
    unfold asciiUpper
    rw [hval, if_neg (by omega)]
  · have h1 : asciiUpper c = c := by
      unfold asciiUpper
      rw [if_neg h]
    rw [h1, h1]

theorem mapAsciiUpper_idem (l : List Char) :
    (l.map asciiUpper).map asciiUpper = l.map asciiUpper := by
  induction l with
  | nil => rfl
  | cons c l ih => simp [List.map_cons, ih, asciiUpper_idem]

theorem pyUpper_idem (s : String) : pyUpper (pyUpper s) = pyUpper s := by
  unfold pyUpper
  exact congrArg String.mk (mapAsciiUpper_idem s.data)

/-! ## Claims C3, C4, C5, C6, C9, C10 -/

/-- Shared: the early-return branch of perform_migration when the source
directory is missing. -/
theorem perform_migration_missing_source (m : DrakensangMigrator) (fs : FS)
    (h : pathExists fs m.source = false) :
    m.perform_migration fs =
      ⟨fs, [infoE Msg.migrationInitiated, errE (Msg.sourceDirNotFound m.source)], false⟩ := by
  unfold DrakensangMigrator.perform_migration
  simp [h]

/-- Shared: a false existence check means the entry is absent. -/
theorem findEntry_none_of_pathExists_false {fs : FS} {p : Path}
    (h : pathExists fs p = false) : findEntry fs p = none := by
  unfold pathExists at h
  by_cases hp : p = []
  · rw [if_pos hp] at h
    cases h
  · rw [if_neg hp] at h
    cases hfe : findEntry fs p with
    | none => rfl
    | some e =>
      rw [hfe] at h
      cases h

/-- C4: if the source directory does not exist when perform_migration is
called, the migration logs the initiation line and one error and returns
with the file system unchanged (destination parent not created, no task
run) and with no exception escaping to the entry point. -/
theorem C4_missing_source_aborts (m : DrakensangMigrator) (fs : FS)
    (h : pathExists fs m.source = false) :
    m.perform_migration fs =
      ⟨fs, [infoE Msg.migrationInitiated, errE (Msg.sourceDirNotFound m.source)], false⟩ :=
  perform_migration_missing_source m fs h

/-- Witness for C4 at a concrete migrator and empty file system. -/
theorem C4_missing_source_aborts_witness :
    pathExists [] ["old"] = false ∧
      DrakensangMigrator.perform_migration ⟨["old"], ["new", "sub"], some ["lnk"]⟩ [] =
        ⟨[], [infoE Msg.migrationInitiated, errE (Msg.sourceDirNotFound ["old"])], false⟩ :=
  ⟨by decide, C4_missing_source_aborts ⟨["old"], ["new", "sub"], some ["lnk"]⟩ [] (by decide)⟩

/-- C5: Copy on a nonexistent source path performs zero file-system
mutations and logs exactly one error message, then returns (no exception). -/
theorem C5_copy_missing_source (fs : FS) (s d : Path) (h : pathExists fs s = false) :
    CopyOperation.execute ⟨s, d⟩ fs = ⟨fs, [errE (Msg.sourcePathNotFound s)], false⟩ := by
  unfold CopyOperation.execute
  simp [h]

/-- Witness for C5 at a concrete source and file system. -/
theorem C5_copy_missing_source_witness :
    pathExists [(["x"], Entry.dir)] ["a"] = false ∧
      CopyOperation.execute ⟨["a"], ["b"]⟩ [(["x"], Entry.dir)] =
        ⟨[(["x"], Entry.dir)], [errE (Msg.sourcePathNotFound ["a"])], false⟩ :=
  ⟨by decide, C5_copy_missing_source [(["x"], Entry.dir)] ["a"] ["b"] (by decide)⟩

/-- C6: Delete on a nonexistent target performs zero file-system mutations
and logs exactly one informational message (level INFO, not ERROR),
treating the deletion as a successful no-op. -/
theorem C6_delete_missing_target (fs : FS) (t : Path) (r : Bool)
    (h : pathExists fs t = false) :
    DeleteOperation.execute ⟨t, r⟩ fs = ⟨fs, [infoE (Msg.targetNotFound t)], false⟩ :=
  DeleteOperation.execute_missing h

/-- Witness for C6 at a concrete target and file system. -/
theorem C6_delete_missing_target_witness :
    pathExists [(["x"], Entry.dir)] ["gone"] = false ∧
      DeleteOperation.execute ⟨["gone"], false⟩ [(["x"], Entry.dir)] =
        ⟨[(["x"], Entry.dir)], [infoE (Msg.targetNotFound ["gone"])], false⟩ :=
  ⟨by decide, C6_delete_missing_target [(["x"], Entry.dir)] ["gone"] false (by decide)⟩

/-- C9: Logger.log is case-insensitive in its severity argument: the output
line for severity `level` equals the one for the upper-cased severity,
because the severity-code lookup upper-cases its argument and upper-casing
is idempotent. -/
theorem C9_logger_case_insensitive (ts level message : String) :
    Logger.log ts level message = Logger.log ts (pyUpper level) message := by
  unfold Logger.log
  rw [pyUpper_idem]

/-- C3 counterexample: on an existing directory with `recursive := false`,
DeleteOperation.execute removes nothing at all (the unlink failure is
caught and logged as an error), not exactly one entry. -/
theorem C3_counterexample :
    (DeleteOperation.execute ⟨["d"], false⟩ [(["d"], Entry.dir)]).fs = [(["d"], Entry.dir)] ∧
      (DeleteOperation.execute ⟨["d"], false⟩ [(["d"], Entry.dir)]).logs =
        [errE (Msg.failedDelete ["d"])] := by
  decide

/-- C3 (amended): for every existing target, delete with `recursive = true`
on a directory removes the directory and all of its contents and nothing
else; on a file (either flag) it removes exactly that one entry; with
`recursive = false` on a directory it removes nothing and logs one error;
no exception ever escapes. -/
theorem C3_delete_spec (fs : FS) (t : Path) (r : Bool) (e : Entry)
    (hne : t ≠ []) (h : findEntry fs t = some e) :
    (DeleteOperation.execute ⟨t, r⟩ fs).exc = false ∧
      (e = Entry.dir → r = true →
        (∀ q, isUnder t q = true →
            findEntry (DeleteOperation.execute ⟨t, r⟩ fs).fs q = none) ∧
          (∀ q, isUnder t q = false →
            findEntry (DeleteOperation.execute ⟨t, r⟩ fs).fs q = findEntry fs q)) ∧
      (∀ c, e = Entry.file c →
        findEntry (DeleteOperation.execute ⟨t, r⟩ fs).fs t = none ∧
          (∀ q, q ≠ t →
            findEntry (DeleteOperation.execute ⟨t, r⟩ fs).fs q = findEntry fs q)) ∧
      (e = Entry.dir → r = false →
        DeleteOperation.execute ⟨t, r⟩ fs = ⟨fs, [errE (Msg.failedDelete t)], false⟩) := by
  cases e with
  | dir =>
    cases r with
    | true =>
      rw [DeleteOperation.execute_dir_recursive hne h]
      refine ⟨rfl, ?_, ?_, ?_⟩
      · intro _ _
        constructor
        · intro q hq
          rw [findEntry_eraseTree, if_pos hq]
        · intro q hq
          rw [findEntry_eraseTree, hq]
          simp
      · intro c hc
        simp at hc
      · intro _ hr
        simp at hr
    | false =>
      rw [DeleteOperation.execute_dir_nonrecursive h]
      refine ⟨rfl, ?_, ?_, ?_⟩
      · intro _ hr
        simp at hr
      · intro c hc
        simp at hc
      · intro _ _
        rfl
  | file c0 =>
    rw [DeleteOperation.execute_file hne h]
    refine ⟨rfl, ?_, ?_, ?_⟩
    · intro hd
      simp at hd
    · intro c hc
      constructor
      · rw [findEntry_eraseKey, if_pos rfl]
      · intro q hq
        rw [findEntry_eraseKey, if_neg hq]
    · intro hd
      simp at hd

/-- Witness for the amended C3 at a concrete directory tree. -/
theorem C3_delete_spec_witness :
    (["d"] ≠ ([] : Path)) ∧
      findEntry [(["d"], Entry.dir), (["d", "x"], Entry.file [1]), (["e"], Entry.file [2])] ["d"]
        = some Entry.dir ∧
      findEntry (DeleteOperation.execute ⟨["d"], true⟩
        [(["d"], Entry.dir), (["d", "x"], Entry.file [1]), (["e"], Entry.file [2])]).fs ["d", "x"]
        = none :=
  ⟨by decide, by decide,
    ((C3_delete_spec [(["d"], Entry.dir), (["d", "x"], Entry.file [1]), (["e"], Entry.file [2])]
        ["d"] true Entry.dir (by decide) (by decide)).2.1 rfl rfl).1 ["d", "x"] (by decide)⟩

/-- C10: a DeleteOperation constructed with only a target path has
`recursive = true` (the dataclass default), and so removes the entire
subtree when the target is an existing directory. -/
theorem C10_default_recursive (fs : FS) (t : Path) (hne : t ≠ [])
    (h : findEntry fs t = some Entry.dir) :
    ({ target := t } : DeleteOperation).recursive = true ∧
      ∀ q, isUnder t q = true →
        findEntry (DeleteOperation.execute { target := t } fs).fs q = none := by
  refine ⟨rfl, ?_⟩
  intro q hq
  have heq : ({ target := t } : DeleteOperation) = ⟨t, true⟩ := rfl
  rw [heq, DeleteOperation.execute_dir_recursive hne h]
  rw [findEntry_eraseTree, if_pos hq]

/-- Witness for C10 at a concrete directory tree. -/
theorem C10_default_recursive_witness :
    (["d"] ≠ ([] : Path)) ∧
      findEntry [(["d"], Entry.dir), (["d", "x"], Entry.file [1])] ["d"] = some Entry.dir ∧
      findEntry (DeleteOperation.execute { target := ["d"] }
        [(["d"], Entry.dir), (["d", "x"], Entry.file [1])]).fs ["d", "x"] = none :=
  ⟨by decide, by decide,
    (C10_default_recursive [(["d"], Entry.dir), (["d", "x"], Entry.file [1])] ["d"]
      (by decide) (by decide)).2 ["d", "x"] (by decide)⟩


/-! ## Task sequencing lemmas -/

theorem opStep_logs (st : ExecSt) (op : Operation) :
    ∃ suf, (opStep st op).logs = st.logs ++ suf := by
  unfold opStep
  by_cases h : st.exc
  · exact ⟨[], by simp [h]⟩
  · exact ⟨(op.execute st.fs).logs, by simp [h]⟩

theorem opsFold_logs_extend (ops : List Operation) (st : ExecSt) :
    ∃ suf, (ops.foldl opStep st).logs = st.logs ++ suf := by
  induction ops generalizing st with
  | nil => exact ⟨[], by simp⟩
  | cons op ops ih =>
    rcases opStep_logs st op with ⟨s1, h1⟩
    rcases ih (opStep st op) with ⟨s2, h2⟩
    exact ⟨s1 ++ s2, by rw [List.foldl_cons, h2, h1, List.append_assoc]⟩

/-- C8 counterexample: a task whose copy operation hits a destination
occupied by a file raises an uncaught exception and never reaches its
completion log line. -/
theorem C8_counterexample :
    (MigrationTask.run ⟨"Copy Game Files", [Operation.copy ⟨["s"], ["d"]⟩]⟩
        [(["s"], Entry.dir), (["d"], Entry.file [])]).exc = true ∧
      (MigrationTask.run ⟨"Copy Game Files", [Operation.copy ⟨["s"], ["d"]⟩]⟩
        [(["s"], Entry.dir), (["d"], Entry.file [])]).logs =
        [infoE (Msg.startingTask "Copy Game Files")] := by
  decide

/-- C8 (amended): run() always logs the start message with the task name
first; when no uncaught exception escapes an operation, the task reaches
its completion log line as the final entry. -/
theorem C8_task_run_spec (t : MigrationTask) (fs : FS) :
    (t.run fs).logs.head? = some (infoE (Msg.startingTask t.name)) ∧
      ((t.run fs).exc = false →
        (t.run fs).logs.getLast? = some (infoE (Msg.completedTask t.name))) := by
  unfold MigrationTask.run
  rcases opsFold_logs_extend t.operations ⟨fs, [infoE (Msg.startingTask t.name)], false⟩ with
    ⟨suf, hsuf⟩
  cases h : (t.operations.foldl opStep ⟨fs, [infoE (Msg.startingTask t.name)], false⟩).exc with
  | true =>
    simp only [h, if_true]
    constructor
    · rw [hsuf]
      rfl
    · intro hfalse
      cases hfalse
  | false =>
    simp only [h, Bool.false_eq_true, if_false]
    constructor
    · show ((t.operations.foldl opStep _).logs ++ _).head? = _
      rw [hsuf, List.append_assoc]
      rfl
    · intro _
      show ((t.operations.foldl opStep _).logs ++ _).getLast? = _
      rw [List.getLast?_concat]

/-- Witness for the amended C8 at a concrete task. -/
theorem C8_task_run_spec_witness :
    (MigrationTask.run ⟨"T", [Operation.delete ⟨["x"], true⟩]⟩ []).logs.head? =
        some (infoE (Msg.startingTask "T")) ∧
      (MigrationTask.run ⟨"T", [Operation.delete ⟨["x"], true⟩]⟩ []).logs.getLast? =
        some (infoE (Msg.completedTask "T")) :=
  ⟨(C8_task_run_spec ⟨"T", [Operation.delete ⟨["x"], true⟩]⟩ []).1,
   (C8_task_run_spec ⟨"T", [Operation.delete ⟨["x"], true⟩]⟩ []).2 (by decide)⟩


/-! ## startedTasks bookkeeping -/

theorem startedTasks_append (a b : List LogEntry) :
    startedTasks (a ++ b) = startedTasks a ++ startedTasks b := by
  unfold startedTasks
  rw [List.filterMap_append]

theorem startedTasks_copyFiles (sdir ddir : Path) (files : List String) (st : ExecSt) :
    startedTasks ((files.foldl (copyFileStep sdir ddir) st).logs) = startedTasks st.logs := by
  induction files generalizing st with
  | nil => rfl
  | cons f files ih =>
    rw [List.foldl_cons, ih]
    unfold copyFileStep
    cases hcc : copy2 st.fs (sdir ++ [f]) (ddir ++ [f]) with
    | some fs2 => rfl
    | none =>
      show startedTasks (st.logs ++ [errE (Msg.failedCopy (sdir ++ [f]))]) = startedTasks st.logs
      rw [startedTasks_append]
      show startedTasks st.logs ++ [] = startedTasks st.logs
      rw [List.append_nil]

theorem startedTasks_copyDirs (src dst : Path) (snap : FS) (dirs : List Path) (st : ExecSt) :
    startedTasks ((dirs.foldl (copyDirStep src dst snap) st).logs) = startedTasks st.logs := by
  induction dirs generalizing st with
  | nil => rfl
  | cons d dirs ih =>
    rw [List.foldl_cons, ih]
    by_cases h : st.exc = true
    · have hstep : copyDirStep src dst snap st d = st := by
        unfold copyDirStep
        rw [if_pos h]
      rw [hstep]
    · have hstep : copyDirStep src dst snap st d =
          (match mkdirParents st.fs (dst ++ d.drop src.length) with
           | none => { st with exc := true }
           | some fs2 => (filesIn snap d).foldl (copyFileStep d (dst ++ d.drop src.length))
               { st with fs := fs2 }) := by
        unfold copyDirStep
        rw [if_neg h]
      rw [hstep]
      cases hmk : mkdirParents st.fs (dst ++ d.drop src.length) with
      | none => rfl
      | some fs2 => rw [startedTasks_copyFiles]

theorem startedTasks_opExec (op : Operation) (fs : FS) :
    startedTasks (op.execute fs).logs = [] := by
  cases op with
  | copy c =>
    show startedTasks (CopyOperation.execute c fs).logs = []
    unfold CopyOperation.execute
    by_cases h : pathExists fs c.src = true
    · rw [if_pos h]
      cases hmk : mkdirParents fs c.dst with
      | none => rfl
      | some fs1 =>
        dsimp only
        by_cases hexc :
            ((walkDirs fs1 c.src).foldl (copyDirStep c.src c.dst fs1) ⟨fs1, [], false⟩).exc = true
        · rw [if_pos hexc, startedTasks_copyDirs]
          rfl
        · rw [if_neg hexc]
          show startedTasks (_ ++ [infoE Msg.copyCompleted]) = []
          rw [startedTasks_append, startedTasks_copyDirs]
          rfl
    · rw [if_neg h]
      rfl
  | delete d =>
    show startedTasks (DeleteOperation.execute d fs).logs = []
    unfold DeleteOperation.execute
    by_cases h : pathExists fs d.target = true
    · rw [if_pos h]
      by_cases h2 : (isDirFS fs d.target && d.recursive) = true
      · rw [if_pos h2]
        rfl
      · rw [if_neg h2]
        cases hu : unlink fs d.target with
        | some fs2 => rfl
        | none => rfl
    · rw [if_neg h]
      rfl

theorem opsFold_startedTasks (ops : List Operation) (st : ExecSt) :
    startedTasks (ops.foldl opStep st).logs = startedTasks st.logs := by
  induction ops generalizing st with
  | nil => rfl
  | cons op ops ih =>
    rw [List.foldl_cons, ih]
    unfold opStep
    by_cases h : st.exc = true
    · rw [if_pos h]
    · rw [if_neg h]
      show startedTasks (st.logs ++ (op.execute st.fs).logs) = startedTasks st.logs
      rw [startedTasks_append, startedTasks_opExec]
      rw [List.append_nil]

theorem startedTasks_taskRun (t : MigrationTask) (fs : FS) :
    startedTasks (t.run fs).logs = [t.name] := by
  unfold MigrationTask.run
  have hbase : startedTasks ([infoE (Msg.startingTask t.name)] : List LogEntry) = [t.name] := rfl
  cases h : (t.operations.foldl opStep ⟨fs, [infoE (Msg.startingTask t.name)], false⟩).exc with
  | true =>
    simp only [h, if_true]
    rw [opsFold_startedTasks]
    exact hbase
  | false =>
    simp only [h, Bool.false_eq_true, if_false]
    show startedTasks (_ ++ [infoE (Msg.completedTask t.name)]) = [t.name]
    rw [startedTasks_append, opsFold_startedTasks, hbase]
    rfl

/-! ## Task-list sequencing -/

theorem runTasks_exc_true (ts : List MigrationTask) (st : ExecSt) (h : st.exc = true) :
    runTasks ts st = st := by
  induction ts with
  | nil => rfl
  | cons t ts ih =>
    unfold runTasks at *
    rw [List.foldl_cons]
    have h1 : taskStep st t = st := by
      unfold taskStep
      rw [if_pos h]
    rw [h1, ih]

theorem startedTasks_runTasks (ts : List MigrationTask) (st : ExecSt)
    (hexc : (runTasks ts st).exc = false) :
    startedTasks (runTasks ts st).logs = startedTasks st.logs ++ ts.map MigrationTask.name := by
  induction ts generalizing st with
  | nil =>
    unfold runTasks
    simp
  | cons t ts ih =>
    unfold runTasks at hexc ⊢
    rw [List.foldl_cons] at hexc ⊢
    by_cases h : st.exc = true
    · have h1 : taskStep st t = st := by
        unfold taskStep
        rw [if_pos h]
      rw [h1] at hexc ⊢
      have h2 : List.foldl taskStep st ts = st := runTasks_exc_true ts st h
      rw [h2] at hexc
      rw [hexc] at h
      cases h
    · have h1 : taskStep st t =
          ⟨(t.run st.fs).fs, st.logs ++ (t.run st.fs).logs, (t.run st.fs).exc⟩ := by
        unfold taskStep
        rw [if_neg h]
      rw [h1] at hexc ⊢
      have ih2 := ih ⟨(t.run st.fs).fs, st.logs ++ (t.run st.fs).logs, (t.run st.fs).exc⟩ hexc
      unfold runTasks at ih2
      rw [ih2]
      show startedTasks (st.logs ++ (t.run st.fs).logs) ++ _ = _
      rw [startedTasks_append, startedTasks_taskRun]
      simp [List.map_cons, List.append_assoc]

/-- Unfolding of perform_migration when the source exists. -/
theorem perform_migration_eq (m : DrakensangMigrator) (fs : FS)
    (hsrc : pathExists fs m.source = true) :
    m.perform_migration fs =
      (let stepA : ExecSt :=
        if pathExists fs m.destination.dropLast then ⟨fs, [infoE Msg.migrationInitiated], false⟩
        else
          match mkdirParents fs m.destination.dropLast with
          | some fs1 =>
            ⟨fs1, [infoE Msg.migrationInitiated,
              infoE (Msg.destParentMissing m.destination.dropLast)], false⟩
          | none =>
            ⟨fs, [infoE Msg.migrationInitiated,
              infoE (Msg.destParentMissing m.destination.dropLast)], true⟩
       let st := runTasks m.tasks stepA
       if st.exc then st else { st with logs := st.logs ++ [infoE Msg.allTasksCompleted] }) := by
  unfold DrakensangMigrator.perform_migration
  simp only [hsrc, if_true]
  rfl


/-! ## The final state of a completed migration -/

theorem startedTasks_afterTasks (ts : List MigrationTask) (stepA : ExecSt)
    (hA : startedTasks stepA.logs = [])
    (hexc : (if (runTasks ts stepA).exc = true then runTasks ts stepA
        else { runTasks ts stepA with
               logs := (runTasks ts stepA).logs ++ [infoE Msg.allTasksCompleted] }).exc = false) :
    startedTasks (if (runTasks ts stepA).exc = true then runTasks ts stepA
        else { runTasks ts stepA with
               logs := (runTasks ts stepA).logs ++ [infoE Msg.allTasksCompleted] }).logs =
      ts.map MigrationTask.name := by
  cases hst : (runTasks ts stepA).exc with
  | true =>
    simp only [hst, if_true] at hexc
    cases hexc
  | false =>
    simp only [hst, Bool.false_eq_true, if_false]
    show startedTasks ((runTasks ts stepA).logs ++ [infoE Msg.allTasksCompleted]) = _
    rw [startedTasks_append, startedTasks_runTasks ts stepA hst, hA]
    have hz : startedTasks [infoE Msg.allTasksCompleted] = [] := rfl
    rw [hz, List.append_nil, List.nil_append]

theorem taskStep_exc_false {st : ExecSt} (t : MigrationTask) (h : st.exc = false) :
    taskStep st t = ⟨(t.run st.fs).fs, st.logs ++ (t.run st.fs).logs, (t.run st.fs).exc⟩ := by
  unfold taskStep
  simp [h]

theorem taskStep_exc_true {st : ExecSt} (t : MigrationTask) (h : st.exc = true) :
    taskStep st t = st := by
  unfold taskStep
  simp [h]

/-- Running the source-removal task always succeeds and leaves the target
absent. -/
theorem run_remove_task (g : FS) (p : Path) (hne : p ≠ []) :
    (MigrationTask.run ⟨"Remove Old Installation", [Operation.delete ⟨p, true⟩]⟩ g).exc = false ∧
      findEntry
        (MigrationTask.run ⟨"Remove Old Installation", [Operation.delete ⟨p, true⟩]⟩ g).fs p =
        none := by
  unfold MigrationTask.run
  have h1 : (([Operation.delete ⟨p, true⟩] : List Operation).foldl opStep
      ⟨g, [infoE (Msg.startingTask "Remove Old Installation")], false⟩) =
      ⟨(DeleteOperation.execute ⟨p, true⟩ g).fs,
        [infoE (Msg.startingTask "Remove Old Installation")] ++
          (DeleteOperation.execute ⟨p, true⟩ g).logs,
        (DeleteOperation.execute ⟨p, true⟩ g).exc⟩ := by
    rw [List.foldl_cons, List.foldl_nil]
    unfold opStep
    rw [if_neg (by simp)]
    rfl
  rw [h1]
  obtain ⟨he, hf⟩ := delete_source_spec g p hne
  constructor
  · simp [he]
  · simp [he, hf]

/-- After a run of the task list that raised no exception, the source
directory entry is gone (the final task recursively deletes it). -/
theorem runTasks_tasks_source_gone (m : DrakensangMigrator) (stepA : ExecSt)
    (hne : m.source ≠ []) (hexc : (runTasks m.tasks stepA).exc = false) :
    findEntry (runTasks m.tasks stepA).fs m.source = none := by
  obtain ⟨front, hfront⟩ : ∃ front, m.tasks = front ++
      [⟨"Remove Old Installation", [Operation.delete ⟨m.source, true⟩]⟩] := by
    cases hs : m.shortcut with
    | some s =>
      refine ⟨[⟨"Copy Game Files", [Operation.copy ⟨m.source, m.destination⟩]⟩,
        ⟨"Delete Shortcut", [Operation.delete ⟨s, false⟩]⟩], ?_⟩
      unfold DrakensangMigrator.tasks DrakensangMigrator.taskOptions
      rw [hs]
      rfl
    | none =>
      refine ⟨[⟨"Copy Game Files", [Operation.copy ⟨m.source, m.destination⟩]⟩], ?_⟩
      unfold DrakensangMigrator.tasks DrakensangMigrator.taskOptions
      rw [hs]
      rfl
  rw [hfront] at hexc ⊢
  unfold runTasks at hexc ⊢
  rw [List.foldl_append, List.foldl_cons, List.foldl_nil] at hexc ⊢
  cases h : (List.foldl taskStep stepA front).exc with
  | true =>
    rw [taskStep_exc_true _ h] at hexc
    rw [hexc] at h
    cases h
  | false =>
    rw [taskStep_exc_false _ h]
    exact (run_remove_task (List.foldl taskStep stepA front).fs m.source hne).2

theorem afterTasks_source_gone (m : DrakensangMigrator) (stepA : ExecSt)
    (hne : m.source ≠ [])
    (hexc : (if (runTasks m.tasks stepA).exc = true then runTasks m.tasks stepA
        else { runTasks m.tasks stepA with
               logs := (runTasks m.tasks stepA).logs ++ [infoE Msg.allTasksCompleted] }).exc
      = false) :
    findEntry (if (runTasks m.tasks stepA).exc = true then runTasks m.tasks stepA
        else { runTasks m.tasks stepA with
               logs := (runTasks m.tasks stepA).logs ++ [infoE Msg.allTasksCompleted] }).fs
      m.source = none := by
  cases hst : (runTasks m.tasks stepA).exc with
  | true =>
    simp only [hst, if_true] at hexc
    cases hexc
  | false =>
    simp only [hst, Bool.false_eq_true, if_false]
    exact runTasks_tasks_source_gone m stepA hne hst

/-- A completed perform_migration leaves no entry at the source path. -/
theorem perform_migration_source_gone (m : DrakensangMigrator) (fs : FS)
    (hne : m.source ≠ []) (hexc : (m.perform_migration fs).exc = false) :
    findEntry (m.perform_migration fs).fs m.source = none := by
  by_cases hsrc : pathExists fs m.source = true
  · rw [perform_migration_eq m fs hsrc] at hexc ⊢
    dsimp only at hexc ⊢
    by_cases hd : pathExists fs m.destination.dropLast = true
    · rw [if_pos hd] at hexc ⊢
      exact afterTasks_source_gone m _ hne hexc
    · rw [if_neg hd] at hexc ⊢
      cases hmk : mkdirParents fs m.destination.dropLast with
      | some fs1 =>
        rw [hmk] at hexc
        dsimp only at hexc ⊢
        exact afterTasks_source_gone m _ hne hexc
      | none =>
        rw [hmk] at hexc
        dsimp only at hexc ⊢
        exact afterTasks_source_gone m _ hne hexc
  · have hfalse : pathExists fs m.source = false := by
      cases hpe : pathExists fs m.source with
      | true => exact absurd hpe hsrc
      | false => rfl
    rw [perform_migration_missing_source m fs hfalse]
    exact findEntry_none_of_pathExists_false hfalse

/-- C2: after a first perform_migration run that raised no exception, a
second run on the resulting file system mutates nothing: it logs the
initiation line and the precondition error and returns early, because the
source directory is no longer present. -/
theorem C2_second_run_noop (m : DrakensangMigrator) (fs : FS) (hne : m.source ≠ [])
    (hexc : (m.perform_migration fs).exc = false) :
    (m.perform_migration (m.perform_migration fs).fs).fs = (m.perform_migration fs).fs ∧
      (m.perform_migration (m.perform_migration fs).fs).logs =
        [infoE Msg.migrationInitiated, errE (Msg.sourceDirNotFound m.source)] ∧
      (m.perform_migration (m.perform_migration fs).fs).exc = false := by
  have hgone : findEntry (m.perform_migration fs).fs m.source = none :=
    perform_migration_source_gone m fs hne hexc
  have hpe : pathExists (m.perform_migration fs).fs m.source = false :=
    pathExists_eq_false hne hgone
  rw [perform_migration_missing_source m _ hpe]
  exact ⟨rfl, rfl, rfl⟩

/-- Witness for C2: the section 8 scenario file system, run twice. -/
theorem C2_second_run_noop_witness :
    (DrakensangMigrator.perform_migration ⟨["tmp", "src"], ["tmp", "dst"], some ["tmp", "lnk"]⟩
        (DrakensangMigrator.perform_migration ⟨["tmp", "src"], ["tmp", "dst"], some ["tmp", "lnk"]⟩
          [(["tmp"], Entry.dir), (["tmp", "src"], Entry.dir),
           (["tmp", "src", "a.txt"], Entry.file [1, 2]), (["tmp", "lnk"], Entry.file [9])]).fs).logs =
      [infoE Msg.migrationInitiated, errE (Msg.sourceDirNotFound ["tmp", "src"])] :=
  (C2_second_run_noop ⟨["tmp", "src"], ["tmp", "dst"], some ["tmp", "lnk"]⟩
    [(["tmp"], Entry.dir), (["tmp", "src"], Entry.dir),
     (["tmp", "src", "a.txt"], Entry.file [1, 2]), (["tmp", "lnk"], Entry.file [9])]
    (by decide) (by decide)).2.1

/-- C7: perform_migration builds exactly the ordered task list copy,
optional shortcut delete (present if and only if a shortcut was supplied,
non-recursive), then recursive source delete; and a completed run starts
those tasks in exactly that order, none reordered or skipped. -/
theorem C7_task_order (m : DrakensangMigrator) (fs : FS)
    (hsrc : pathExists fs m.source = true) :
    m.tasks =
      [⟨"Copy Game Files", [Operation.copy ⟨m.source, m.destination⟩]⟩] ++
        (match m.shortcut with
         | some s => [⟨"Delete Shortcut", [Operation.delete ⟨s, false⟩]⟩]
         | none => []) ++
        [⟨"Remove Old Installation", [Operation.delete ⟨m.source, true⟩]⟩] ∧
      ((m.perform_migration fs).exc = false →
        startedTasks (m.perform_migration fs).logs = m.tasks.map MigrationTask.name) := by
  constructor
  · unfold DrakensangMigrator.tasks DrakensangMigrator.taskOptions
    cases hs : m.shortcut with
    | some s => simp [hs]
    | none => simp [hs]
  · intro hexc
    rw [perform_migration_eq m fs hsrc] at hexc ⊢
    dsimp only at hexc ⊢
    by_cases hd : pathExists fs m.destination.dropLast = true
    · rw [if_pos hd] at hexc ⊢
      exact startedTasks_afterTasks m.tasks _ rfl hexc
    · rw [if_neg hd] at hexc ⊢
      cases hmk : mkdirParents fs m.destination.dropLast with
      | some fs1 =>
        rw [hmk] at hexc
        dsimp only at hexc ⊢
        exact startedTasks_afterTasks m.tasks _ rfl hexc
      | none =>
        rw [hmk] at hexc
        dsimp only at hexc ⊢
        exact startedTasks_afterTasks m.tasks _ rfl hexc

/-- Witness for C7 at a concrete migrator with a shortcut. -/
theorem C7_task_order_witness :
    DrakensangMigrator.tasks ⟨["s"], ["d"], some ["k"]⟩ =
      [⟨"Copy Game Files", [Operation.copy ⟨["s"], ["d"]⟩]⟩,
       ⟨"Delete Shortcut", [Operation.delete ⟨["k"], false⟩]⟩,
       ⟨"Remove Old Installation", [Operation.delete ⟨["s"], true⟩]⟩] ∧
      startedTasks (DrakensangMigrator.perform_migration ⟨["s"], ["d"], some ["k"]⟩
          [(["s"], Entry.dir)]).logs =
        ["Copy Game Files", "Delete Shortcut", "Remove Old Installation"] := by
  constructor
  · exact (C7_task_order ⟨["s"], ["d"], some ["k"]⟩ [(["s"], Entry.dir)] (by decide)).1
  · have h := (C7_task_order ⟨["s"], ["d"], some ["k"]⟩ [(["s"], Entry.dir)] (by decide)).2
      (by decide)
    rw [h]
    decide


/-! ## Path disjointness helpers -/

theorem ne_nil_of_not_under {a b : Path} (h : isUnder a b = false) : a ≠ [] := by
  intro ha
  rw [ha, isUnder_nil] at h
  cases h

theorem ne_nil_of_under {r p : Path} (hr : r ≠ []) (h : isUnder r p = true) : p ≠ [] := by
  rintro rfl
  obtain ⟨t, ht⟩ := isUnder_iff.mp h
  rcases List.append_eq_nil.mp ht with ⟨h1, h2⟩
  exact hr h1

theorem under_disjoint {src dst p : Path} (hsd : isUnder src dst = false)
    (hds : isUnder dst src = false) (hp : isUnder src p = true) :
    isUnder dst p = false := by
  cases hq : isUnder dst p with
  | false => rfl
  | true =>
    rcases isUnder_comparable hp hq with h | h
    · rw [h] at hsd
      cases hsd
    · rw [h] at hds
      cases hds

theorem prefix_append_left (s : Path) {a b : Path} (h : a <+: b) : s ++ a <+: s ++ b :=
  (List.prefix_append_right_inj s).mpr h

/-- Splitting a prefix of `dst ++ reld`: it is a prefix of `dst`, or extends
`dst` by a prefix of `reld`. -/
theorem prefix_of_append_cases {dst reld q : Path} (h : q <+: dst ++ reld) :
    q <+: dst ∨ ∃ relq, q = dst ++ relq ∧ relq <+: reld := by
  rcases List.prefix_or_prefix_of_prefix h (List.prefix_append dst reld) with h1 | h1
  · exact Or.inl h1
  · right
    obtain ⟨relq, rfl⟩ := h1
    refine ⟨relq, rfl, ?_⟩
    obtain ⟨t, ht⟩ := h
    rw [List.append_assoc] at ht
    exact ⟨t, List.append_cancel_left ht⟩

theorem under_append_split {dst reld q : Path} (hdq : isUnder dst q = true)
    (hq : q <+: dst ++ reld) : ∃ relq, q = dst ++ relq ∧ relq <+: reld := by
  obtain ⟨t, rfl⟩ := isUnder_iff.mp hdq
  exact ⟨t, rfl, (List.prefix_append_right_inj dst).mp hq⟩

/-- One `dest_dir.mkdir(parents=True, exist_ok=True)` call of the copy loop
succeeds and preserves the loop invariant; afterwards the directory at the
current relative path has been reproduced. -/
theorem copy_mkdir_step {base : FS} {src dst : Path} (ctx : CopyCtx base src dst)
    {g : FS} (hinv : copyInv base src dst g) {d : Path}
    (hd : isUnder src d = true) (hddir : findEntry base d = some Entry.dir) :
    ∃ g2, mkdirParents g (dst ++ d.drop src.length) = some g2 ∧
      copyInv base src dst g2 ∧
      (∀ rel, copied base src dst g rel → copied base src dst g2 rel) ∧
      copied base src dst g2 (d.drop src.length) := by
  obtain ⟨hinv1, hinv2⟩ := hinv
  have hsd : src ++ d.drop src.length = d := append_drop_of_isUnder hd
  set reld := d.drop src.length with hreld
  have hdst_ne : dst ≠ [] := ne_nil_of_not_under ctx.dsDisj
  have hbase_src2 : ∀ relq, relq <+: reld → findEntry base (src ++ relq) = some Entry.dir := by
    intro relq hq
    by_cases hrr : relq = reld
    · rw [hrr, hsd]
      exact hddir
    · apply ctx.srcAnc d Entry.dir hd hddir (src ++ relq) (isUnder_append src relq)
      · rw [← hsd]
        exact isUnder_iff.mpr (prefix_append_left src hq)
      · rw [← hsd]
        intro hcontra
        exact hrr (List.append_cancel_left hcontra)
  have hanc : ∀ q ∈ ancestorsOf (dst ++ reld), ∀ c, findEntry g q ≠ some (Entry.file c) := by
    intro q hqmem c
    obtain ⟨hqne, hqpre⟩ := mem_ancestorsOf.mp hqmem
    by_cases hdq : isUnder dst q = true
    · obtain ⟨relq, rfl, hrelq⟩ := under_append_split hdq hqpre
      rcases hinv2 relq with h1 | h1
      · rw [h1]
        intro hcontra
        cases hcontra
      · rw [h1, hbase_src2 relq hrelq]
        intro hcontra
        cases hcontra
    · have hrdst : q <+: dst := by
        rcases List.prefix_or_prefix_of_prefix hqpre (List.prefix_append dst reld) with h1 | h1
        · exact h1
        · rw [isUnder_iff.mpr h1] at hdq
          exact absurd rfl hdq
      have hbq : findEntry base q = some Entry.dir :=
        ctx.dstAnc q (mem_ancestorsOf.mpr ⟨hqne, hrdst⟩)
      have hdq2 : isUnder dst q = false := by
        cases hu : isUnder dst q with
        | false => rfl
        | true => exact absurd hu hdq
      rw [hinv1 q hdq2, hbq]
      intro hcontra
      cases hcontra
  obtain ⟨g2, hg2, hdirs, hpt⟩ := mkdirParents_spec g (dst ++ reld) hanc
  have hchanged_under : ∀ r, r ∈ ancestorsOf (dst ++ reld) → findEntry g r = none →
      isUnder dst r = true := by
    intro r hmem hnone
    cases hu : isUnder dst r with
    | true => rfl
    | false =>
      obtain ⟨hrne, hrpre⟩ := mem_ancestorsOf.mp hmem
      have hrdst : r <+: dst := by
        rcases List.prefix_or_prefix_of_prefix hrpre (List.prefix_append dst reld) with h1 | h1
        · exact h1
        · rw [isUnder_iff.mpr h1] at hu
          cases hu
      have hbq : findEntry base r = some Entry.dir :=
        ctx.dstAnc r (mem_ancestorsOf.mpr ⟨hrne, hrdst⟩)
      rw [hinv1 r hu, hbq] at hnone
      cases hnone
  have hinv1b : ∀ p, isUnder dst p = false → findEntry g2 p = findEntry base p := by
    intro p hp
    rcases hpt p with h1 | ⟨hmem, hnone, _⟩
    · rw [h1]
      exact hinv1 p hp
    · rw [hchanged_under p hmem hnone] at hp
      cases hp
  have hinv2b : ∀ rel, findEntry g2 (dst ++ rel) = none ∨
      findEntry g2 (dst ++ rel) = findEntry base (src ++ rel) := by
    intro rel
    rcases hpt (dst ++ rel) with h1 | ⟨hmem, hnone, hdir⟩
    · rw [h1]
      exact hinv2 rel
    · right
      rw [hdir]
      obtain ⟨hne2, hpre⟩ := mem_ancestorsOf.mp hmem
      rw [hbase_src2 rel ((List.prefix_append_right_inj dst).mp hpre)]
  have hmono : ∀ rel, copied base src dst g rel → copied base src dst g2 rel := by
    intro rel hc
    unfold copied at hc ⊢
    rcases hpt (dst ++ rel) with h1 | ⟨hmem, hnone, hdir⟩
    · rw [h1]
      exact hc
    · obtain ⟨_, hpre⟩ := mem_ancestorsOf.mp hmem
      have hbd := hbase_src2 rel ((List.prefix_append_right_inj dst).mp hpre)
      rw [hnone] at hc
      rw [← hc] at hbd
      cases hbd
  have hcop : copied base src dst g2 reld := by
    unfold copied
    have hmem : dst ++ reld ∈ ancestorsOf (dst ++ reld) :=
      self_mem_ancestorsOf (by
        intro h
        exact hdst_ne (List.append_eq_nil.mp h).1)
    rw [hdirs (dst ++ reld) hmem, hsd, hddir]
  exact ⟨g2, hg2, ⟨hinv1b, hinv2b⟩, hmono, hcop⟩

/-- One `shutil.copy2` call of the copy loop succeeds, preserves the
invariant, and reproduces the file at the current relative path. -/
theorem copy_file_step {base : FS} {src dst : Path} (ctx : CopyCtx base src dst)
    {st : ExecSt} (hinv : copyInv base src dst st.fs) {d : Path}
    (hd : isUnder src d = true) {f : String} {c : List Nat}
    (hf : findEntry base (d ++ [f]) = some (Entry.file c)) :
    copyInv base src dst (copyFileStep d (dst ++ d.drop src.length) st f).fs ∧
      (copyFileStep d (dst ++ d.drop src.length) st f).exc = st.exc ∧
      (∀ rel, copied base src dst st.fs rel →
        copied base src dst (copyFileStep d (dst ++ d.drop src.length) st f).fs rel) ∧
      copied base src dst (copyFileStep d (dst ++ d.drop src.length) st f).fs
        (d.drop src.length ++ [f]) := by
  obtain ⟨hinv1, hinv2⟩ := hinv
  have hsd : src ++ d.drop src.length = d := append_drop_of_isUnder hd
  set reld := d.drop src.length with hreld
  have hsf : isUnder src (d ++ [f]) = true := isUnder_append_right [f] hd
  have hdf : isUnder dst ((dst ++ reld) ++ [f]) = true := by
    rw [List.append_assoc]
    exact isUnder_append dst (reld ++ [f])
  have hkey : (dst ++ reld) ++ [f] = dst ++ (reld ++ [f]) := List.append_assoc dst reld [f]
  have hsrckey : src ++ (reld ++ [f]) = d ++ [f] := by
    rw [← List.append_assoc, hsd]
  have hsfind : findEntry st.fs (d ++ [f]) = some (Entry.file c) := by
    rw [hinv1 (d ++ [f]) (under_disjoint ctx.sdDisj ctx.dsDisj hsf), hf]
  have hneq : d ++ [f] ≠ (dst ++ reld) ++ [f] := by
    intro heq
    have h2 := under_disjoint ctx.sdDisj ctx.dsDisj hsf
    rw [heq] at h2
    rw [h2] at hdf
    cases hdf
  have hdfind : findEntry st.fs ((dst ++ reld) ++ [f]) = none ∨
      findEntry st.fs ((dst ++ reld) ++ [f]) = some (Entry.file c) := by
    rw [hkey]
    rcases hinv2 (reld ++ [f]) with h1 | h1
    · exact Or.inl h1
    · right
      rw [h1, hsrckey, hf]
  have hcopy : copy2 st.fs (d ++ [f]) ((dst ++ reld) ++ [f]) =
      some (insertEntry st.fs ((dst ++ reld) ++ [f]) (Entry.file c)) := by
    unfold copy2
    rw [hsfind]
    dsimp only
    rw [if_neg hneq]
    rcases hdfind with h1 | h1
    · rw [h1]
    · rw [h1]
  have hstep : copyFileStep d (dst ++ reld) st f =
      { st with fs := insertEntry st.fs ((dst ++ reld) ++ [f]) (Entry.file c) } := by
    unfold copyFileStep
    rw [hcopy]
  rw [hstep]
  refine ⟨⟨?_, ?_⟩, rfl, ?_, ?_⟩
  · intro p hp
    rw [findEntry_insert]
    rw [if_neg, hinv1 p hp]
    intro hpk
    rw [hpk, hkey] at hp
    rw [isUnder_append dst (reld ++ [f])] at hp
    cases hp
  · intro rel
    rw [findEntry_insert]
    by_cases hk : dst ++ rel = (dst ++ reld) ++ [f]
    · rw [if_pos hk]
      right
      rw [hkey] at hk
      have hrel : rel = reld ++ [f] := List.append_cancel_left hk
      rw [hrel, hsrckey, hf]
    · rw [if_neg hk]
      exact hinv2 rel
  · intro rel hc
    unfold copied at hc ⊢
    rw [findEntry_insert]
    by_cases hk : dst ++ rel = (dst ++ reld) ++ [f]
    · rw [if_pos hk]
      rw [hkey] at hk
      have hrel : rel = reld ++ [f] := List.append_cancel_left hk
      rw [hrel, hsrckey, hf]
    · rw [if_neg hk]
      exact hc
  · unfold copied
    rw [findEntry_insert, if_pos hkey.symm, hsrckey, hf]

/-- Folding `shutil.copy2` over the files of a directory preserves the
invariant and reproduces every file of that directory. -/
theorem copy_files_fold {base : FS} {src dst : Path} (ctx : CopyCtx base src dst)
    {d : Path} (hd : isUnder src d = true) (files : List String)
    (hfiles : ∀ f ∈ files, ∃ c, findEntry base (d ++ [f]) = some (Entry.file c)) :
    ∀ st : ExecSt, copyInv base src dst st.fs →
      copyInv base src dst
          ((files.foldl (copyFileStep d (dst ++ d.drop src.length)) st)).fs ∧
        (files.foldl (copyFileStep d (dst ++ d.drop src.length)) st).exc = st.exc ∧
        (∀ rel, copied base src dst st.fs rel →
          copied base src dst
            (files.foldl (copyFileStep d (dst ++ d.drop src.length)) st).fs rel) ∧
        (∀ f ∈ files, copied base src dst
          (files.foldl (copyFileStep d (dst ++ d.drop src.length)) st).fs
          (d.drop src.length ++ [f])) := by
  induction files with
  | nil =>
    intro st hinv
    exact ⟨hinv, rfl, fun _ h => h, by simp⟩
  | cons f files ih =>
    intro st hinv
    obtain ⟨c, hc⟩ := hfiles f (List.mem_cons_self _ _)
    obtain ⟨hinv2, hexc2, hmono2, hcop2⟩ := copy_file_step ctx hinv hd hc
    obtain ⟨hinv3, hexc3, hmono3, hcopall⟩ :=
      ih (fun f2 hf2 => hfiles f2 (List.mem_cons_of_mem _ hf2))
        (copyFileStep d (dst ++ d.drop src.length) st f) hinv2
    rw [List.foldl_cons]
    refine ⟨hinv3, by rw [hexc3, hexc2], fun rel h => hmono3 rel (hmono2 rel h), ?_⟩
    intro f2 hf2
    rcases List.mem_cons.mp hf2 with rfl | hf2
    · exact hmono3 _ hcop2
    · exact hcopall f2 hf2

/-- Folding the per-directory body over the walked directories preserves the
invariant, raises nothing, and reproduces every walked directory along with
all of its files. -/
theorem copy_dirs_fold {base : FS} {src dst : Path} (ctx : CopyCtx base src dst)
    (dirs : List Path)
    (hdirs : ∀ d ∈ dirs, isUnder src d = true ∧ findEntry base d = some Entry.dir) :
    ∀ st : ExecSt, copyInv base src dst st.fs → st.exc = false →
      copyInv base src dst (dirs.foldl (copyDirStep src dst base) st).fs ∧
        (dirs.foldl (copyDirStep src dst base) st).exc = false ∧
        (∀ rel, copied base src dst st.fs rel →
          copied base src dst (dirs.foldl (copyDirStep src dst base) st).fs rel) ∧
        (∀ d ∈ dirs,
          copied base src dst (dirs.foldl (copyDirStep src dst base) st).fs
            (d.drop src.length) ∧
          ∀ f ∈ filesIn base d,
            copied base src dst (dirs.foldl (copyDirStep src dst base) st).fs
              (d.drop src.length ++ [f])) := by
  induction dirs with
  | nil =>
    intro st hinv hexc
    exact ⟨hinv, hexc, fun _ h => h, by simp⟩
  | cons d dirs ih =>
    intro st hinv hexc
    obtain ⟨hd, hddir⟩ := hdirs d (List.mem_cons_self _ _)
    obtain ⟨g2, hg2, hinv2, hmono2, hcop2⟩ := copy_mkdir_step ctx hinv hd hddir
    have hfiles : ∀ f ∈ filesIn base d, ∃ c, findEntry base (d ++ [f]) = some (Entry.file c) :=
      fun f hf => mem_filesIn.mp hf
    have hexcne : ¬ st.exc = true := by
      rw [hexc]
      intro h
      cases h
    have hstep : copyDirStep src dst base st d =
        (filesIn base d).foldl (copyFileStep d (dst ++ d.drop src.length))
          { st with fs := g2 } := by
      unfold copyDirStep
      rw [if_neg hexcne]
      dsimp only
      rw [hg2]
    have hinv2b : copyInv base src dst ({ st with fs := g2 } : ExecSt).fs := hinv2
    obtain ⟨hinv3, hexc3, hmono3, hcopf⟩ :=
      copy_files_fold ctx hd (filesIn base d) hfiles { st with fs := g2 } hinv2b
    have hexc3b : ((filesIn base d).foldl (copyFileStep d (dst ++ d.drop src.length))
        { st with fs := g2 }).exc = false := by
      rw [hexc3]
      exact hexc
    obtain ⟨hinv4, hexc4, hmono4, hcopd⟩ :=
      ih (fun d2 hd2 => hdirs d2 (List.mem_cons_of_mem _ hd2))
        ((filesIn base d).foldl (copyFileStep d (dst ++ d.drop src.length))
          { st with fs := g2 }) hinv3 hexc3b
    rw [List.foldl_cons, hstep]
    refine ⟨hinv4, hexc4, ?_, ?_⟩
    · intro rel h
      exact hmono4 rel (hmono3 rel (hmono2 rel h))
    · intro d2 hd2
      rcases List.mem_cons.mp hd2 with rfl | hd2
      · constructor
        · exact hmono4 _ (hmono3 _ hcop2)
        · intro f hf
          exact hmono4 _ (hcopf f hf)
      · exact hcopd d2 hd2

/-- C1: for every well-formed file system whose source path is an existing
directory tree, and a fresh destination disjoint from it (nothing exists at
or below the destination, its ancestors are absent or directories), the
copy operation raises nothing and reproduces every file and subdirectory of
the source at the same relative path under the destination, with file
contents identical. -/
theorem C1_copy_reproduces_tree (fs : FS) (src dst : Path)
    (hwf : WFfs fs)
    (hsrc : findEntry fs src = some Entry.dir)
    (hsd : isUnder src dst = false)
    (hds : isUnder dst src = false)
    (hfresh : ∀ ke ∈ fs, isUnder dst ke.1 = false)
    (hanc : ∀ q ∈ ancestorsOf dst,
      findEntry fs q = none ∨ findEntry fs q = some Entry.dir) :
    (CopyOperation.execute ⟨src, dst⟩ fs).exc = false ∧
      ∀ rel e, findEntry fs (src ++ rel) = some e →
        findEntry (CopyOperation.execute ⟨src, dst⟩ fs).fs (dst ++ rel) = some e := by
  have hsrc_ne : src ≠ [] := ne_nil_of_not_under hsd
  have hdst_ne : dst ≠ [] := ne_nil_of_not_under hds
  have hanc2 : ∀ q ∈ ancestorsOf dst, ∀ c, findEntry fs q ≠ some (Entry.file c) := by
    intro q hq c
    rcases hanc q hq with h | h <;> rw [h] <;> intro hc <;> cases hc
  obtain ⟨base, hbase, hdirs, hpt⟩ := mkdirParents_spec fs dst hanc2
  have hfs_dst_none : ∀ p, isUnder dst p = true → findEntry fs p = none := by
    intro p hp
    cases hfe : findEntry fs p with
    | none => rfl
    | some e =>
      have h2 := hfresh (p, e) (findEntry_mem hfe)
      rw [hp] at h2
      cases h2
  have hsame : ∀ p, isUnder src p = true → findEntry base p = findEntry fs p := by
    intro p hp
    rcases hpt p with h | ⟨hmem, _, _⟩
    · exact h
    · obtain ⟨hpne, hppre⟩ := mem_ancestorsOf.mp hmem
      have h2 : isUnder src dst = true := isUnder_iff.mpr ((isUnder_iff.mp hp).trans hppre)
      rw [h2] at hsd
      cases hsd
  have ctx : CopyCtx base src dst := by
    refine ⟨?_, ?_, ?_, ?_, hdirs, hsd, hds⟩
    · rw [hsame src (isUnder_refl src), hsrc]
    · intro p e hp hpe q hq hqp hqne
      have hfs_pe : findEntry fs p = some e := by rw [← hsame p hp, hpe]
      have hwf2 := (hwf.2 (p, e) (findEntry_mem hfs_pe)).2
      have hq_ne_nil : q ≠ [] := ne_nil_of_under hsrc_ne hq
      have hqanc : q ∈ ancestorsOf p := mem_ancestorsOf.mpr ⟨hq_ne_nil, isUnder_iff.mp hqp⟩
      rw [hsame q hq]
      exact hwf2 q hqanc hqne
    · exact hdirs dst (self_mem_ancestorsOf hdst_ne)
    · intro rel hrel
      rcases hpt (dst ++ rel) with h | ⟨hmem, _, _⟩
      · rw [h]
        exact hfs_dst_none (dst ++ rel) (isUnder_append dst rel)
      · obtain ⟨_, hpre⟩ := mem_ancestorsOf.mp hmem
        have hlen := hpre.length_le
        rw [List.length_append] at hlen
        have hz : rel.length = 0 := by omega
        rw [List.length_eq_zero] at hz
        exact absurd hz hrel
  have hinv0 : copyInv base src dst base := by
    constructor
    · intro p _
      rfl
    · intro rel
      by_cases hrel : rel = []
      · right
        rw [hrel, List.append_nil, List.append_nil, ctx.dstDir, ctx.srcDir]
      · left
        exact ctx.dstFresh rel hrel
  obtain ⟨hinvF, hexcF, hmonoF, hall⟩ :=
    copy_dirs_fold ctx (walkDirs base src) (fun d hd => mem_walkDirs.mp hd)
      ⟨base, [], false⟩ hinv0 rfl
  have hpe : pathExists fs src = true := pathExists_true_of_some hsrc
  have hexcne : ¬ ((walkDirs base src).foldl (copyDirStep src dst base)
      ⟨base, [], false⟩).exc = true := by
    rw [hexcF]
    intro h
    cases h
  have hexe : CopyOperation.execute ⟨src, dst⟩ fs =
      { (walkDirs base src).foldl (copyDirStep src dst base) ⟨base, [], false⟩ with
        logs := ((walkDirs base src).foldl (copyDirStep src dst base)
          ⟨base, [], false⟩).logs ++ [infoE Msg.copyCompleted] } := by
    unfold CopyOperation.execute
    simp only [hpe, if_true]
    rw [hbase]
    dsimp only
    rw [if_neg hexcne]
  rw [hexe]
  refine ⟨hexcF, ?_⟩
  intro rel e hrel
  have hbase_rel : findEntry base (src ++ rel) = some e := by
    rw [hsame (src ++ rel) (isUnder_append src rel), hrel]
  show findEntry ((walkDirs base src).foldl (copyDirStep src dst base)
    ⟨base, [], false⟩).fs (dst ++ rel) = some e
  cases e with
  | dir =>
    have hdmem : (src ++ rel) ∈ walkDirs base src :=
      mem_walkDirs.mpr ⟨isUnder_append src rel, hbase_rel⟩
    have hc := (hall (src ++ rel) hdmem).1
    unfold copied at hc
    rw [List.drop_left] at hc
    rw [hc, hbase_rel]
  | file c =>
    have hrelne : rel ≠ [] := by
      intro h
      rw [h, List.append_nil, ctx.srcDir] at hbase_rel
      cases hbase_rel
    have hrel_decomp : rel.dropLast ++ [rel.getLast hrelne] = rel :=
      List.dropLast_append_getLast hrelne
    have hd_under : isUnder src (src ++ rel.dropLast) = true :=
      isUnder_append src rel.dropLast
    have hdfull : (src ++ rel.dropLast) ++ [rel.getLast hrelne] = src ++ rel := by
      rw [List.append_assoc, hrel_decomp]
    have hwf2 := (hwf.2 _ (findEntry_mem hrel)).2
    have hd_anc : (src ++ rel.dropLast) ∈ ancestorsOf (src ++ rel) := by
      apply mem_ancestorsOf.mpr
      constructor
      · intro h
        exact hsrc_ne (List.append_eq_nil.mp h).1
      · exact prefix_append_left src (List.dropLast_prefix rel)
    have hd_ne : src ++ rel.dropLast ≠ src ++ rel := by
      intro h
      have hlen := congrArg List.length h
      rw [List.length_append, List.length_append, List.length_dropLast] at hlen
      have hpos : 0 < rel.length := List.length_pos.mpr hrelne
      omega
    have hfs_d : findEntry fs (src ++ rel.dropLast) = some Entry.dir := hwf2 _ hd_anc hd_ne
    have hbase_d : findEntry base (src ++ rel.dropLast) = some Entry.dir := by
      rw [hsame _ hd_under, hfs_d]
    have hdmem : (src ++ rel.dropLast) ∈ walkDirs base src :=
      mem_walkDirs.mpr ⟨hd_under, hbase_d⟩
    have hfmem : rel.getLast hrelne ∈ filesIn base (src ++ rel.dropLast) :=
      mem_filesIn.mpr ⟨c, by rw [hdfull, hbase_rel]⟩
    have hc2 := (hall _ hdmem).2 (rel.getLast hrelne) hfmem
    unfold copied at hc2
    rw [List.drop_left] at hc2
    rw [hrel_decomp] at hc2
    rw [hc2, hbase_rel]

/-- Witness for C1 at the concrete tree of the specification scenario:
source with a top-level file and a nested file, fresh destination. -/
theorem C1_copy_reproduces_tree_witness :
    (CopyOperation.execute ⟨["s"], ["d"]⟩
        [(["s"], Entry.dir), (["s", "a"], Entry.file [1, 2]),
         (["s", "sub"], Entry.dir), (["s", "sub", "b"], Entry.file [3])]).exc = false ∧
      findEntry (CopyOperation.execute ⟨["s"], ["d"]⟩
        [(["s"], Entry.dir), (["s", "a"], Entry.file [1, 2]),
         (["s", "sub"], Entry.dir), (["s", "sub", "b"], Entry.file [3])]).fs
        ["d", "sub", "b"] = some (Entry.file [3]) := by
  have h := C1_copy_reproduces_tree
    [(["s"], Entry.dir), (["s", "a"], Entry.file [1, 2]),
     (["s", "sub"], Entry.dir), (["s", "sub", "b"], Entry.file [3])]
    ["s"] ["d"] (by decide) (by decide) (by decide) (by decide) (by decide) (by decide)
  exact ⟨h.1, h.2 ["sub", "b"] (Entry.file [3]) (by decide)⟩

end DsoMiti
